import Mathlib

/-!
Verification of the fuzzy span locator and highlighter `render_full_text`
from `app_publish.py`.

The Python function is:

    def render_full_text(full: str, chunk: str) -> str:
        escaped_full  = html.escape(full)
        escaped_chunk = html.escape(chunk.strip())
        chunk_words   = re.findall(r"\w+", escaped_chunk)
        pattern       = r"\W+".join(map(re.escape, chunk_words))
        match = re.search(pattern, escaped_full, flags=re.IGNORECASE | re.DOTALL)
        if match:
            start, end = match.span()
            highlighted = (
                escaped_full[:start]
                + "<mark id=(q)chunk-highlight(q) style=(q)background-color:#FFDD00;(q)>"
                + escaped_full[start:end]
                + "</mark>"
                + escaped_full[end:]
            )
            return highlighted.replace("\n", "<br>")
        return escaped_full.replace("\n", "<br>")

(in the real source the (q) above are single-quote characters).

We embed strings as `List Char`.  Word characters model the regex class
`\w` (ASCII letters, digits, underscore).  Case-insensitive comparison
models `re.IGNORECASE` via `Char.toLower`.  The regex
`tok1\W+tok2\W+...\W+tokn` over word-only tokens matches
deterministically at a given start position: each `\W+` must consume the
maximal run of non-word characters (a shorter run would leave a non-word
character where the next token, which begins with a word character, has
to match, and the run cannot extend past a word character), so the
search is embedded as a deterministic leftmost scan.  The empty token
list yields the empty pattern, which `re.search` matches at span (0,0);
the embedding reproduces this.
-/

/-- ASCII model of the regex class `\w`: alphanumeric or underscore. -/
def isWordChar (c : Char) : Bool :=
  c.isAlphanum || c == '_'

/-- The regex class `\W` (complement of `\w`). -/
def notWord (c : Char) : Bool :=
  !isWordChar c

/-- Case folding used to model `re.IGNORECASE` (ASCII lowering). -/
def foldCase (c : Char) : Char :=
  c.toLower

/-- ASCII model of the whitespace stripped by Python `str.strip()`. -/
def pyIsSpace (c : Char) : Bool :=
  c == ' ' || c == '\t' || c == '\n' || c == '\r' || c == '\x0b' || c == '\x0c'

/-- Python `str.strip()`: remove leading and trailing whitespace. -/
def pyStrip (s : List Char) : List Char :=
  ((s.dropWhile pyIsSpace).reverse.dropWhile pyIsSpace).reverse

/-- `html.escape` on a single character (quote=True, the default).
The five replacements are `&amp;` `&lt;` `&gt;` `&quot;` `&#x27;`. -/
def escChar (c : Char) : List Char :=
  if c = '&' then ['&', 'a', 'm', 'p', ';']
  else if c = '<' then ['&', 'l', 't', ';']
  else if c = '>' then ['&', 'g', 't', ';']
  else if c = '"' then ['&', 'q', 'u', 'o', 't', ';']
  else if c = '\'' then ['&', '#', 'x', '2', '7', ';']
  else [c]

/-- `html.escape`: each replacement is independent per character because
the characters produced by one replacement are never rewritten by a
later one. -/
def html_escape : List Char → List Char
  | [] => []
  | c :: rest => escChar c ++ html_escape rest

/-- The single-quote character appearing inside the mark tag. -/
def quoteC : Char := '\''

/-- Tail of the opening highlight tag, after the leading `<m`. -/
def moRest : List Char :=
  "ark id=".toList ++ [quoteC] ++ "chunk-highlight".toList ++ [quoteC] ++
    " style=".toList ++ [quoteC] ++ "background-color:#FFDD00;".toList ++
    [quoteC] ++ ">".toList

/-- The opening highlight tag inserted by `render_full_text`. -/
def markOpenL : List Char := '<' :: 'm' :: moRest

/-- The closing highlight tag `</mark>`. -/
def markCloseL : List Char := '<' :: '/' :: "mark>".toList

/-- The line-break marker `<br>` substituted for newlines. -/
def brL : List Char := "<br>".toList

/-- `str.replace("\n", "<br>")`. -/
def lineBreaks : List Char → List Char
  | [] => []
  | c :: rest => (if c = '\n' then brL else [c]) ++ lineBreaks rest

/-- Fuel-indexed scanner behind `tokenize`; the fuel only forces
structural recursion and never runs out when it starts at the length of
the input. -/
def tokenizeF : Nat → List Char → List (List Char)
  | 0, _ => []
  | _ + 1, [] => []
  | fuel + 1, c :: rest =>
    if isWordChar c then
      (c :: rest.takeWhile isWordChar) :: tokenizeF fuel (rest.dropWhile isWordChar)
    else
      tokenizeF fuel rest

/-- `re.findall(r"\w+", s)`: the maximal runs of word characters. -/
def tokenize (s : List Char) : List (List Char) :=
  tokenizeF s.length s

/-- Case-insensitively strip token `t` from the front of `s`, returning
the remainder on success.  Models matching one literal token under
`re.IGNORECASE`. -/
def stripCI : List Char → List Char → Option (List Char)
  | [], s => some s
  | _ :: _, [] => none
  | a :: as, b :: bs => if foldCase a = foldCase b then stripCI as bs else none

/-- Match the pattern `t1\W+t2\W+...\W+tn` at the start of `s`,
returning the remainder of `s` after the match.  Each `\W+` necessarily
consumes the maximal run of non-word characters (see the header
comment), so the match is deterministic.  The empty pattern matches
without consuming anything. -/
def matchToks : List (List Char) → List Char → Option (List Char)
  | [], s => some s
  | [t], s => stripCI t s
  | t :: t2 :: ts, s =>
    match stripCI t s with
    | none => none
    | some r =>
      if r.takeWhile notWord = [] then none
      else matchToks (t2 :: ts) (r.dropWhile notWord)

/-- `re.search`: the leftmost start position at which the pattern
matches, with its half-open span `(start, end)`. -/
def search (toks : List (List Char)) : List Char → Option (Nat × Nat)
  | [] => (matchToks toks []).map (fun _ => ((0 : Nat), (0 : Nat)))
  | c :: rest =>
    match matchToks toks (c :: rest) with
    | some r => some (0, (c :: rest).length - r.length)
    | none => (search toks rest).map (fun p => (p.1 + 1, p.2 + 1))

/-- The word tokens extracted from the escaped, stripped chunk. -/
def chunkToks (chunk : List Char) : List (List Char) :=
  tokenize (html_escape (pyStrip chunk))

/-- Shallow embedding of `render_full_text` from `app_publish.py`. -/
def render_full_text (full chunk : List Char) : List Char :=
  let ef := html_escape full
  match search (chunkToks chunk) ef with
  | some (st, en) =>
    lineBreaks (ef.take st ++ markOpenL ++ (ef.drop st).take (en - st) ++
      markCloseL ++ ef.drop en)
  | none => lineBreaks ef

/-- Number of positions of `s` at which `pat` occurs as a contiguous
subsequence (occurrences counted by start position). -/
def countSeq (pat : List Char) : List Char → Nat
  | [] => 0
  | c :: rest => (if pat.isPrefixOf (c :: rest) then 1 else 0) + countSeq pat rest

/-- Remove the first (leftmost) occurrence of `pat`, if any. -/
def dropFirst (pat : List Char) : List Char → List Char
  | [] => []
  | c :: rest =>
    if pat.isPrefixOf (c :: rest) then rest.drop (pat.length - 1)
    else c :: dropFirst pat rest

/-- Fuel-indexed scanner behind `unBreak`; the fuel only forces
structural recursion and never runs out when it starts at the length of
the input. -/
def unBreakF : Nat → List Char → List Char
  | 0, _ => []
  | _ + 1, [] => []
  | fuel + 1, c :: rest =>
    if brL.isPrefixOf (c :: rest) then '\n' :: unBreakF fuel (rest.drop 3)
    else c :: unBreakF fuel rest

/-- Replace every occurrence of `<br>` by a newline (left-to-right). -/
def unBreak (s : List Char) : List Char :=
  unBreakF s.length s

/-! ### Basic lemmas about escaping and line-break conversion -/

theorem html_escape_append (a b : List Char) :
    html_escape (a ++ b) = html_escape a ++ html_escape b := by
  induction a with
  | nil => rfl
  | cons c rest ih => simp [html_escape, ih]

theorem escChar_no_lt (c : Char) : ∀ x ∈ escChar c, x ≠ '<' := by
  intro x hx
  unfold escChar at hx
  by_cases h1 : c = '&'
  · simp [h1] at hx
    rcases hx with rfl | rfl | rfl | rfl | rfl <;> decide
  by_cases h2 : c = '<'
  · simp [h1, h2] at hx
    rcases hx with rfl | rfl | rfl | rfl <;> decide
  by_cases h3 : c = '>'
  · simp [h1, h2, h3] at hx
    rcases hx with rfl | rfl | rfl | rfl <;> decide
  by_cases h4 : c = '"'
  · simp [h1, h2, h3, h4] at hx
    rcases hx with rfl | rfl | rfl | rfl | rfl | rfl <;> decide
  by_cases h5 : c = '\''
  · simp [h1, h2, h3, h4, h5] at hx
    rcases hx with rfl | rfl | rfl | rfl | rfl | rfl <;> decide
  · simp [h1, h2, h3, h4, h5] at hx
    simp [hx, h2]

theorem html_escape_no_lt (s : List Char) : ∀ x ∈ html_escape s, x ≠ '<' := by
  induction s with
  | nil => intro x hx; simp [html_escape] at hx
  | cons c rest ih =>
    intro x hx
    simp only [html_escape, List.mem_append] at hx
    rcases hx with h | h
    · exact escChar_no_lt c x h
    · exact ih x h

theorem lineBreaks_append (a b : List Char) :
    lineBreaks (a ++ b) = lineBreaks a ++ lineBreaks b := by
  induction a with
  | nil => rfl
  | cons c rest ih => simp [lineBreaks, ih]

theorem lineBreaks_markOpenL : lineBreaks markOpenL = markOpenL := by decide

theorem lineBreaks_markCloseL : lineBreaks markCloseL = markCloseL := by decide

/-! ### Lemmas about case-insensitive token stripping -/

theorem stripCI_refl (t x : List Char) : stripCI t (t ++ x) = some x := by
  induction t with
  | nil => rfl
  | cons a as ih => simp [stripCI, ih]

theorem stripCI_decomp : ∀ (t s r : List Char), stripCI t s = some r →
    ∃ m, s = m ++ r ∧ m.map foldCase = t.map foldCase := by
  intro t
  induction t with
  | nil =>
    intro s r h
    simp only [stripCI, Option.some.injEq] at h
    exact ⟨[], by simp [h], by simp⟩
  | cons a as ih =>
    intro s r h
    cases s with
    | nil => simp [stripCI] at h
    | cons b bs =>
      by_cases hfc : foldCase a = foldCase b
      · simp only [stripCI, if_pos hfc] at h
        obtain ⟨m, hm, hf⟩ := ih bs r h
        exact ⟨b :: m, by simp [hm], by simp [hf, hfc.symm]⟩
      · simp [stripCI, hfc] at h

theorem stripCI_congr : ∀ (t t' s : List Char), t'.map foldCase = t.map foldCase →
    stripCI t' s = stripCI t s := by
  intro t
  induction t with
  | nil =>
    intro t' s h
    have : t' = [] := by
      have hl := congrArg List.length h
      simpa using hl
    simp [this]
  | cons a as ih =>
    intro t' s h
    cases t' with
    | nil => simp at h
    | cons a' as' =>
      simp only [List.map_cons, List.cons.injEq] at h
      obtain ⟨ha, has⟩ := h
      cases s with
      | nil => rfl
      | cons b bs =>
        simp only [stripCI, ha]
        by_cases hb : foldCase a = foldCase b
        · simp [hb, ih as' bs has]
        · simp [hb]

/-! ### Lemmas about the token-pattern matcher -/

theorem matchToks_suffix : ∀ (ts : List (List Char)) (s r : List Char),
    matchToks ts s = some r → r <:+ s := by
  intro ts
  induction ts with
  | nil =>
    intro s r h
    simp only [matchToks, Option.some.injEq] at h
    exact h ▸ List.suffix_refl s
  | cons t ts ih =>
    intro s r h
    cases ts with
    | nil =>
      simp only [matchToks] at h
      obtain ⟨m, hm, -⟩ := stripCI_decomp t s r h
      exact ⟨m, hm.symm⟩
    | cons t2 ts2 =>
      simp only [matchToks] at h
      cases hst : stripCI t s with
      | none => rw [hst] at h; simp at h
      | some r1 =>
        rw [hst] at h
        simp only at h
        split at h
        · exact absurd h (by simp)
        · have h2 := ih _ _ h
          obtain ⟨m, hm, -⟩ := stripCI_decomp t s r1 hst
          have hs1 : r1 <:+ s := ⟨m, hm.symm⟩
          exact h2.trans ((List.dropWhile_suffix notWord).trans hs1)

theorem matchToks_congr : ∀ (ts ts' : List (List Char)) (s : List Char),
    ts'.map (List.map foldCase) = ts.map (List.map foldCase) →
    matchToks ts' s = matchToks ts s := by
  intro ts
  induction ts with
  | nil =>
    intro ts' s h
    have : ts' = [] := by
      have hl := congrArg List.length h
      simpa using hl
    simp [this]
  | cons t ts ih =>
    intro ts' s h
    cases ts' with
    | nil => simp at h
    | cons t' ts2' =>
      simp only [List.map_cons, List.cons.injEq] at h
      obtain ⟨ht, hts⟩ := h
      cases ts with
      | nil =>
        have : ts2' = [] := by
          have hl := congrArg List.length hts
          simpa using hl
        subst this
        simp only [matchToks]
        exact stripCI_congr t t' s ht
      | cons t2 ts2 =>
        cases ts2' with
        | nil => simp at hts
        | cons t2' ts3' =>
          simp only [matchToks]
          rw [stripCI_congr t t' s ht]
          cases hst : stripCI t s with
          | none => simp
          | some r1 =>
            simp only
            split
            · rfl
            · exact ih (t2' :: ts3') (r1.dropWhile notWord) hts

theorem matchToks_decomp : ∀ (ts : List (List Char)) (t s r : List Char),
    matchToks (t :: ts) s = some r →
    ∃ m, s = m ++ r ∧
      (m.take t.length).map foldCase = t.map foldCase ∧
      (m.drop (m.length - (ts.getLastD t).length)).map foldCase
         = (ts.getLastD t).map foldCase ∧
      (ts.getLastD t).length ≤ m.length ∧ t.length ≤ m.length := by
  intro ts
  induction ts with
  | nil =>
    intro t s r h
    simp only [matchToks] at h
    obtain ⟨m, hm, hf⟩ := stripCI_decomp t s r h
    have hlen : m.length = t.length := by
      have := congrArg List.length hf
      simpa using this
    refine ⟨m, hm, ?_, ?_, ?_, ?_⟩
    · rw [← hlen, List.take_length]
      exact hf
    · simp only [List.getLastD]
      rw [hlen, Nat.sub_self, List.drop_zero]
      exact hf
    · simp [List.getLastD, hlen]
    · simp [hlen]
  | cons t2 ts2 ih =>
    intro t s r h
    simp only [matchToks] at h
    cases hst : stripCI t s with
    | none => rw [hst] at h; simp at h
    | some r1 =>
      rw [hst] at h
      simp only at h
      split at h
      · exact absurd h (by simp)
      · obtain ⟨m2, hm2, hpre2, hsuf2, hle2, hle2'⟩ := ih t2 (r1.dropWhile notWord) r h
        obtain ⟨m1, hm1, hf1⟩ := stripCI_decomp t s r1 hst
        have hlen1 : m1.length = t.length := by
          have := congrArg List.length hf1
          simpa using this
        refine ⟨m1 ++ r1.takeWhile notWord ++ m2, ?_, ?_, ?_, ?_, ?_⟩
        · have hr1 : r1 = r1.takeWhile notWord ++ (m2 ++ r) := by
            conv_lhs => rw [← List.takeWhile_append_dropWhile (p := notWord) (l := r1)]
            rw [hm2]
          rw [hm1]
          conv_lhs => rw [hr1]
          simp [List.append_assoc]
        · rw [List.append_assoc, List.take_left' (by simpa using hlen1)]
          exact hf1
        · simp only [List.getLastD_cons]
          set tl := ts2.getLastD t2 with htl
          set A := m1 ++ r1.takeWhile notWord with hA
          have hshape : m1 ++ r1.takeWhile notWord ++ m2 = A ++ m2 := by
            rw [hA]
          rw [hshape]
          have harith : (A ++ m2).length - tl.length = A.length + (m2.length - tl.length) := by
            simp only [List.length_append]
            omega
          rw [harith, ← List.drop_drop, List.drop_left]
          exact hsuf2
        · simp only [List.getLastD_cons, List.length_append]
          omega
        · simp only [List.length_append]
          omega

/-! ### Lemmas about the leftmost search -/

theorem search_nil (toks : List (List Char)) :
    search toks [] = (matchToks toks []).map (fun _ => ((0 : Nat), (0 : Nat))) := rfl

theorem search_cons_some (toks : List (List Char)) (c : Char) (rest r : List Char)
    (hm : matchToks toks (c :: rest) = some r) :
    search toks (c :: rest) = some (0, (c :: rest).length - r.length) := by
  simp [search, hm]

theorem search_cons_none (toks : List (List Char)) (c : Char) (rest : List Char)
    (hm : matchToks toks (c :: rest) = none) :
    search toks (c :: rest) = (search toks rest).map (fun p => (p.1 + 1, p.2 + 1)) := by
  simp [search, hm]

theorem search_eq_none_iff (toks : List (List Char)) : ∀ (s : List Char),
    search toks s = none ↔ ∀ j, matchToks toks (s.drop j) = none := by
  intro s
  induction s with
  | nil =>
    rw [search_nil]
    constructor
    · intro h j
      simp only [List.drop_nil]
      cases hm : matchToks toks [] with
      | none => rfl
      | some r => rw [hm] at h; simp at h
    · intro h
      have h0 := h 0
      rw [List.drop_nil] at h0
      rw [h0]
      rfl
  | cons c rest ih =>
    cases hm : matchToks toks (c :: rest) with
    | some r =>
      rw [search_cons_some toks c rest r hm]
      constructor
      · intro h; exact absurd h (by simp)
      · intro h
        have h0 := h 0
        simp only [List.drop_zero] at h0
        rw [hm] at h0
        exact absurd h0 (by simp)
    | none =>
      rw [search_cons_none toks c rest hm]
      simp only [Option.map_eq_none', ih]
      constructor
      · intro h j
        cases j with
        | zero => simpa using hm
        | succ j => simpa using h j
      · intro h j
        have := h (j + 1)
        simpa using this

theorem search_found (toks : List (List Char)) : ∀ (s : List Char) (st en : Nat),
    search toks s = some (st, en) →
    st ≤ s.length ∧ (∀ j, j < st → matchToks toks (s.drop j) = none) ∧
    ∃ r, matchToks toks (s.drop st) = some r ∧
      en = st + ((s.drop st).length - r.length) := by
  intro s
  induction s with
  | nil =>
    intro st en h
    rw [search_nil] at h
    cases hm : matchToks toks [] with
    | none => rw [hm] at h; simp at h
    | some r =>
      rw [hm] at h
      simp only [Option.map_some', Option.some.injEq, Prod.mk.injEq] at h
      obtain ⟨hst, hen⟩ := h
      refine ⟨by simp [← hst], by omega, r, by simpa [← hst] using hm, by simp [← hst, ← hen]⟩
  | cons c rest ih =>
    intro st en h
    cases hm : matchToks toks (c :: rest) with
    | some r =>
      rw [search_cons_some toks c rest r hm] at h
      simp only [Option.some.injEq, Prod.mk.injEq] at h
      obtain ⟨hst, hen⟩ := h
      refine ⟨by simp [← hst], by omega, r, by simpa [← hst] using hm, ?_⟩
      simp [← hst, ← hen]
    | none =>
      rw [search_cons_none toks c rest hm] at h
      simp only [Option.map_eq_some'] at h
      obtain ⟨⟨a, b⟩, hs, hab⟩ := h
      simp only [Prod.mk.injEq] at hab
      obtain ⟨ha, hb⟩ := hab
      obtain ⟨hle, hmin, r, hmr, henr⟩ := ih a b hs
      refine ⟨?_, ?_, r, ?_, ?_⟩
      · simp only [List.length_cons]
        omega
      · intro j hj
        cases j with
        | zero => simpa using hm
        | succ j =>
          have : j < a := by omega
          simpa using hmin j this
      · have : (c :: rest).drop st = rest.drop a := by
          rw [← ha]
          simp
        rw [this]
        exact hmr
      · have hd : (c :: rest).drop st = rest.drop a := by
          rw [← ha]
          simp
        rw [hd]
        omega

/-! ### Lemmas about tokenization -/

theorem tokenizeF_fuel_eq : ∀ (f1 f2 : Nat) (s : List Char), s.length ≤ f1 →
    s.length ≤ f2 → tokenizeF f1 s = tokenizeF f2 s := by
  intro f1
  induction f1 with
  | zero =>
    intro f2 s h1 _
    have : s = [] := List.eq_nil_of_length_eq_zero (Nat.le_zero.mp h1)
    subst this
    cases f2 <;> rfl
  | succ f1 ih =>
    intro f2 s h1 h2
    cases s with
    | nil => cases f2 <;> rfl
    | cons c rest =>
      cases f2 with
      | zero => simp at h2
      | succ f2 =>
        simp only [tokenizeF]
        simp only [List.length_cons] at h1 h2
        by_cases hc : isWordChar c
        · simp only [hc, if_true]
          congr 1
          exact ih f2 (rest.dropWhile isWordChar)
            (Nat.le_of_succ_le_succ (Nat.succ_le_succ
              (le_trans (List.dropWhile_sublist isWordChar).length_le (by omega))))
            (le_trans (List.dropWhile_sublist isWordChar).length_le (by omega))
        · simp only [hc, if_false]
          exact ih f2 rest (by omega) (by omega)

theorem tokenize_nil : tokenize [] = [] := rfl

theorem tokenize_cons_word (c : Char) (rest : List Char) (h : isWordChar c = true) :
    tokenize (c :: rest) =
      (c :: rest.takeWhile isWordChar) :: tokenize (rest.dropWhile isWordChar) := by
  unfold tokenize
  rw [List.length_cons]
  simp only [tokenizeF, h, if_true]
  congr 1
  exact tokenizeF_fuel_eq rest.length (rest.dropWhile isWordChar).length _
    (List.dropWhile_sublist isWordChar).length_le le_rfl

theorem tokenize_cons_nonword (c : Char) (rest : List Char) (h : isWordChar c = false) :
    tokenize (c :: rest) = tokenize rest := by
  unfold tokenize
  rw [List.length_cons]
  simp only [tokenizeF]
  rw [if_neg (by simp [h])]

theorem tokenize_eq_nil_iff : ∀ (s : List Char),
    tokenize s = [] ↔ ∀ c ∈ s, isWordChar c = false := by
  intro s
  induction s with
  | nil => simp [tokenize_nil]
  | cons c rest ih =>
    by_cases h : isWordChar c
    · simp [tokenize_cons_word c rest h, h]
    · have hf : isWordChar c = false := by simpa using h
      simp [tokenize_cons_nonword c rest hf, ih, hf]

theorem tokenize_append_nonword : ∀ (nw x : List Char),
    (∀ c ∈ nw, isWordChar c = false) → tokenize (nw ++ x) = tokenize x := by
  intro nw
  induction nw with
  | nil => intro x _; rfl
  | cons c rest ih =>
    intro x h
    have hc : isWordChar c = false := h c (by simp)
    rw [List.cons_append, tokenize_cons_nonword c (rest ++ x) hc]
    exact ih x (fun a ha => h a (by simp [ha]))

theorem takeWhile_append_cons_stop (p : Char → Bool) : ∀ (A : List Char) (b : Char)
    (B : List Char), (∀ a ∈ A, p a = true) → p b = false →
    (A ++ b :: B).takeWhile p = A := by
  intro A
  induction A with
  | nil => intro b B _ hb; simp [List.takeWhile_cons, hb]
  | cons a as ih =>
    intro b B h hb
    have ha : p a = true := h a (by simp)
    simp only [List.cons_append, List.takeWhile_cons, ha]
    simp [ih b B (fun x hx => h x (by simp [hx])) hb]

theorem dropWhile_append_cons_stop (p : Char → Bool) : ∀ (A : List Char) (b : Char)
    (B : List Char), (∀ a ∈ A, p a = true) → p b = false →
    (A ++ b :: B).dropWhile p = b :: B := by
  intro A
  induction A with
  | nil => intro b B _ hb; simp [List.dropWhile_cons, hb]
  | cons a as ih =>
    intro b B h hb
    have ha : p a = true := h a (by simp)
    simp only [List.cons_append, List.dropWhile_cons, ha]
    simp [ih b B (fun x hx => h x (by simp [hx])) hb]

theorem head_dropWhile_false (p : Char → Bool) : ∀ (l : List Char) (b : Char)
    (B : List Char), l.dropWhile p = b :: B → p b = false := by
  intro l
  induction l with
  | nil => intro b B h; simp at h
  | cons c rest ih =>
    intro b B h
    rw [List.dropWhile_cons] at h
    by_cases hc : p c
    · rw [if_pos hc] at h
      exact ih b B h
    · rw [if_neg hc] at h
      obtain ⟨rfl, -⟩ := List.cons.injEq .. ▸ h
      · simpa using hc

theorem mem_takeWhile_true (p : Char → Bool) : ∀ (l : List Char) (a : Char),
    a ∈ l.takeWhile p → p a = true := by
  intro l
  induction l with
  | nil => intro a h; simp at h
  | cons c rest ih =>
    intro a h
    rw [List.takeWhile_cons] at h
    by_cases hc : p c
    · rw [if_pos hc] at h
      rcases List.mem_cons.mp h with rfl | h2
      · exact hc
      · exact ih a h2
    · rw [if_neg hc] at h
      simp at h

/-! ### The pattern built from the tokens of a region matches that region -/

theorem matchToks_tokenize_word : ∀ (n : Nat) (c : Char) (rest v : List Char),
    (c :: rest).length ≤ n → isWordChar c = true →
    ∃ r, matchToks (tokenize (c :: rest)) ((c :: rest) ++ v) = some r := by
  intro n
  induction n with
  | zero => intro c rest v hle _; simp at hle
  | succ n ih =>
    intro c rest v hle hc
    rw [tokenize_cons_word c rest hc]
    have hsplit : c :: rest = (c :: rest.takeWhile isWordChar) ++ rest.dropWhile isWordChar := by
      simp [List.takeWhile_append_dropWhile]
    cases htk : tokenize (rest.dropWhile isWordChar) with
    | nil =>
      refine ⟨rest.dropWhile isWordChar ++ v, ?_⟩
      conv_lhs => rw [hsplit]
      rw [List.append_assoc]
      simp only [matchToks]
      exact stripCI_refl _ _
    | cons tk tks =>
      have hrrne : rest.dropWhile isWordChar ≠ [] := by
        intro he
        rw [he] at htk
        simp [tokenize_nil] at htk
      obtain ⟨b, rbs, hrr⟩ := List.exists_cons_of_ne_nil hrrne
      have hbnw : isWordChar b = false := head_dropWhile_false isWordChar rest b rbs hrr
      -- split the remainder into its non-word separator and the rest
      set rr := rest.dropWhile isWordChar with hrrdef
      have hx2ne : rr.dropWhile notWord ≠ [] := by
        intro he
        have hall : ∀ a ∈ rr, isWordChar a = false := by
          intro a ha
          have : rr = rr.takeWhile notWord := by
            conv_lhs => rw [← List.takeWhile_append_dropWhile (p := notWord) (l := rr)]
            rw [he, List.append_nil]
          rw [this] at ha
          have := mem_takeWhile_true notWord rr a ha
          simpa [notWord] using this
        rw [(tokenize_eq_nil_iff rr).mpr hall] at htk
        simp at htk
      obtain ⟨c2, rest2, hx2⟩ := List.exists_cons_of_ne_nil hx2ne
      have hc2 : isWordChar c2 = true := by
        have := head_dropWhile_false notWord rr c2 rest2 hx2
        simpa [notWord] using this
      have hnw : ∀ a ∈ rr.takeWhile notWord, notWord a = true :=
        fun a ha => mem_takeWhile_true notWord rr a ha
      have hnwne : rr.takeWhile notWord ≠ [] := by
        rw [hrr]
        simp [List.takeWhile_cons, notWord, hbnw]
      have hrrsplit : rr = rr.takeWhile notWord ++ (c2 :: rest2) := by
        conv_lhs => rw [← List.takeWhile_append_dropWhile (p := notWord) (l := rr)]
        rw [hx2]
      -- tokens of rr are the tokens of the part after the separator
      have htok2 : tokenize (c2 :: rest2) = tk :: tks := by
        rw [← htk]
        conv_rhs => rw [hrrsplit]
        rw [tokenize_append_nonword (rr.takeWhile notWord) (c2 :: rest2)
          (fun a ha => by simpa [notWord] using hnw a ha)]
      -- length bound for the recursive call
      have hlen2 : (c2 :: rest2).length ≤ n := by
        have h1 : (c2 :: rest2).length ≤ rr.length := by
          rw [← hx2]
          exact (List.dropWhile_sublist notWord).length_le
        have h2 : rr.length ≤ rest.length := (List.dropWhile_sublist isWordChar).length_le
        have h3 : (c :: rest).length = rest.length + 1 := by simp
        omega
      obtain ⟨r, hr⟩ := ih c2 rest2 v hlen2 hc2
      refine ⟨r, ?_⟩
      conv_lhs => rw [hsplit]
      rw [List.append_assoc]
      simp only [matchToks]
      rw [stripCI_refl]
      simp only
      have htw : (rr ++ v).takeWhile notWord = rr.takeWhile notWord := by
        conv_lhs => rw [hrrsplit]
        rw [List.append_assoc, List.cons_append]
        exact takeWhile_append_cons_stop notWord (rr.takeWhile notWord) c2 (rest2 ++ v) hnw
          (by simp [notWord, hc2])
      have hdw : (rr ++ v).dropWhile notWord = c2 :: (rest2 ++ v) := by
        conv_lhs => rw [hrrsplit]
        rw [List.append_assoc, List.cons_append]
        exact dropWhile_append_cons_stop notWord (rr.takeWhile notWord) c2 (rest2 ++ v) hnw
          (by simp [notWord, hc2])
      rw [htw, hdw, if_neg hnwne]
      rw [← htok2]
      simpa using hr

theorem matchToks_tokenize_exists : ∀ (s v : List Char), tokenize s ≠ [] →
    ∃ j r, j ≤ s.length ∧ matchToks (tokenize s) (s.drop j ++ v) = some r := by
  intro s
  induction s with
  | nil => intro v h; simp [tokenize_nil] at h
  | cons c rest ih =>
    intro v h
    by_cases hc : isWordChar c
    · obtain ⟨r, hr⟩ := matchToks_tokenize_word (c :: rest).length c rest v le_rfl hc
      exact ⟨0, r, by simp, by simpa using hr⟩
    · have hcf : isWordChar c = false := by simpa using hc
      rw [tokenize_cons_nonword c rest hcf] at h ⊢
      obtain ⟨j, r, hj, hr⟩ := ih v h
      refine ⟨j + 1, r, by simpa using Nat.succ_le_succ hj, by simpa using hr⟩

/-! ### Traversal lemmas: markers inside a line-break-converted text -/

theorem unBreakF_fuel_eq : ∀ (f1 f2 : Nat) (s : List Char), s.length ≤ f1 →
    s.length ≤ f2 → unBreakF f1 s = unBreakF f2 s := by
  intro f1
  induction f1 with
  | zero =>
    intro f2 s h1 _
    have : s = [] := List.eq_nil_of_length_eq_zero (Nat.le_zero.mp h1)
    subst this
    cases f2 <;> rfl
  | succ f1 ih =>
    intro f2 s h1 h2
    cases s with
    | nil => cases f2 <;> rfl
    | cons c rest =>
      cases f2 with
      | zero => simp at h2
      | succ f2 =>
        simp only [unBreakF]
        simp only [List.length_cons] at h1 h2
        by_cases hp : brL.isPrefixOf (c :: rest)
        · rw [if_pos hp, if_pos hp]
          congr 1
          exact ih f2 (rest.drop 3)
            (le_trans (by rw [List.length_drop]; omega) (by omega : rest.length ≤ f1))
            (le_trans (by rw [List.length_drop]; omega) (by omega : rest.length ≤ f2))
        · rw [if_neg hp, if_neg hp]
          congr 1
          exact ih f2 rest (by omega) (by omega)

theorem unBreak_cons (c : Char) (rest : List Char) :
    unBreak (c :: rest) =
      if brL.isPrefixOf (c :: rest) then '\n' :: unBreak (rest.drop 3)
      else c :: unBreak rest := by
  unfold unBreak
  rw [List.length_cons]
  simp only [unBreakF]
  by_cases hp : brL.isPrefixOf (c :: rest)
  · rw [if_pos hp, if_pos hp]
    congr 1
    exact unBreakF_fuel_eq rest.length (rest.drop 3).length _
      (by rw [List.length_drop]; omega) le_rfl
  · rw [if_neg hp, if_neg hp]

theorem isPrefixOf_self_append : ∀ (l X : List Char), l.isPrefixOf (l ++ X) = true := by
  intro l
  induction l with
  | nil => intro X; cases X <;> rfl
  | cons a as ih => intro X; simp [List.isPrefixOf, ih]

theorem isPrefixOf_head_ne (a : Char) (as : List Char) (b : Char) (bs : List Char)
    (h : a ≠ b) : (a :: as).isPrefixOf (b :: bs) = false := by
  simp [List.isPrefixOf, h]

theorem isPrefixOf_second_ne (x : Char) (p2 : Char) (pr : List Char) (b : Char)
    (bs : List Char) (h : p2 ≠ b) : (x :: p2 :: pr).isPrefixOf (x :: b :: bs) = false := by
  simp [List.isPrefixOf, h]

theorem countSeq_cons_neg (pat : List Char) (c : Char) (rest : List Char)
    (h : pat.isPrefixOf (c :: rest) = false) :
    countSeq pat (c :: rest) = countSeq pat rest := by
  simp [countSeq, h]

theorem dropFirst_cons_neg (pat : List Char) (c : Char) (rest : List Char)
    (h : pat.isPrefixOf (c :: rest) = false) :
    dropFirst pat (c :: rest) = c :: dropFirst pat rest := by
  simp [dropFirst, h]

theorem countSeq_lineBreaks_append (p2 : Char) (pr : List Char) (hp2 : p2 ≠ 'b') :
    ∀ (ef B : List Char), (∀ c ∈ ef, c ≠ '<') →
    countSeq ('<' :: p2 :: pr) (lineBreaks ef ++ B) = countSeq ('<' :: p2 :: pr) B := by
  intro ef
  induction ef with
  | nil => intro B _; simp [lineBreaks]
  | cons c rest ih =>
    intro B hef
    have hc : c ≠ '<' := hef c (by simp)
    have hrest : ∀ x ∈ rest, x ≠ '<' := fun x hx => hef x (by simp [hx])
    by_cases hnl : c = '\n'
    · subst hnl
      show countSeq ('<' :: p2 :: pr) ((brL ++ lineBreaks rest) ++ B) = _
      have hb : brL ++ lineBreaks rest ++ B =
          '<' :: 'b' :: 'r' :: '>' :: (lineBreaks rest ++ B) := by
        simp [brL]
      rw [hb]
      rw [countSeq_cons_neg _ _ _ (isPrefixOf_second_ne '<' p2 pr 'b' _ hp2)]
      rw [countSeq_cons_neg _ _ _ (isPrefixOf_head_ne '<' _ 'b' _ (by decide))]
      rw [countSeq_cons_neg _ _ _ (isPrefixOf_head_ne '<' _ 'r' _ (by decide))]
      rw [countSeq_cons_neg _ _ _ (isPrefixOf_head_ne '<' _ '>' _ (by decide))]
      exact ih B hrest
    · have hLB : lineBreaks (c :: rest) = [c] ++ lineBreaks rest := by
        simp [lineBreaks, hnl]
      rw [hLB]
      have hb : [c] ++ lineBreaks rest ++ B = c :: (lineBreaks rest ++ B) := by simp
      rw [hb]
      rw [countSeq_cons_neg _ _ _ (isPrefixOf_head_ne '<' _ c _ (fun he => hc he.symm))]
      exact ih B hrest

theorem countSeq_append_no_head (p : Char) (ps : List Char) :
    ∀ (l B : List Char), (∀ c ∈ l, c ≠ p) →
    countSeq (p :: ps) (l ++ B) = countSeq (p :: ps) B := by
  intro l
  induction l with
  | nil => intro B _; rfl
  | cons c rest ih =>
    intro B h
    have hc : c ≠ p := h c (by simp)
    rw [List.cons_append]
    rw [countSeq_cons_neg _ _ _ (isPrefixOf_head_ne p _ c _ (fun he => hc he.symm))]
    exact ih B (fun x hx => h x (by simp [hx]))

theorem countSeq_self_cons (c : Char) (cs X : List Char) :
    countSeq (c :: cs) ((c :: cs) ++ X) = 1 + countSeq (c :: cs) (cs ++ X) := by
  have h : (c :: cs) ++ X = c :: (cs ++ X) := by simp
  rw [h]
  simp [countSeq, isPrefixOf_self_append]

theorem countSeq_nil_of_ne_nil (c : Char) (cs : List Char) :
    countSeq (c :: cs) [] = 0 := rfl

theorem dropFirst_lineBreaks_append (p2 : Char) (pr : List Char) (hp2 : p2 ≠ 'b') :
    ∀ (ef B : List Char), (∀ c ∈ ef, c ≠ '<') →
    dropFirst ('<' :: p2 :: pr) (lineBreaks ef ++ B) =
      lineBreaks ef ++ dropFirst ('<' :: p2 :: pr) B := by
  intro ef
  induction ef with
  | nil => intro B _; simp [lineBreaks]
  | cons c rest ih =>
    intro B hef
    have hc : c ≠ '<' := hef c (by simp)
    have hrest : ∀ x ∈ rest, x ≠ '<' := fun x hx => hef x (by simp [hx])
    by_cases hnl : c = '\n'
    · subst hnl
      show dropFirst ('<' :: p2 :: pr) ((brL ++ lineBreaks rest) ++ B) = (brL ++ lineBreaks rest) ++ _
      have hb : brL ++ lineBreaks rest ++ B =
          '<' :: 'b' :: 'r' :: '>' :: (lineBreaks rest ++ B) := by
        simp [brL]
      rw [hb]
      rw [dropFirst_cons_neg _ _ _ (isPrefixOf_second_ne '<' p2 pr 'b' _ hp2)]
      rw [dropFirst_cons_neg _ _ _ (isPrefixOf_head_ne '<' _ 'b' _ (by decide))]
      rw [dropFirst_cons_neg _ _ _ (isPrefixOf_head_ne '<' _ 'r' _ (by decide))]
      rw [dropFirst_cons_neg _ _ _ (isPrefixOf_head_ne '<' _ '>' _ (by decide))]
      rw [ih B hrest]
      simp [brL]
    · have hLB : lineBreaks (c :: rest) = [c] ++ lineBreaks rest := by
        simp [lineBreaks, hnl]
      rw [hLB]
      have hb : [c] ++ lineBreaks rest ++ B = c :: (lineBreaks rest ++ B) := by simp
      rw [hb]
      rw [dropFirst_cons_neg _ _ _ (isPrefixOf_head_ne '<' _ c _ (fun he => hc he.symm))]
      rw [ih B hrest]
      simp

theorem dropFirst_self (c : Char) (cs X : List Char) :
    dropFirst (c :: cs) ((c :: cs) ++ X) = X := by
  have hp : (c :: cs).isPrefixOf (c :: (cs ++ X)) = true := by
    rw [← List.cons_append]
    exact isPrefixOf_self_append (c :: cs) X
  rw [List.cons_append, dropFirst, if_pos hp]
  have h2 : (c :: cs).length - 1 = cs.length := by simp
  rw [h2, List.drop_left]

theorem unBreak_lineBreaks_append : ∀ (ef B : List Char), (∀ c ∈ ef, c ≠ '<') →
    unBreak (lineBreaks ef ++ B) = ef ++ unBreak B := by
  intro ef
  induction ef with
  | nil => intro B _; simp [lineBreaks]
  | cons c rest ih =>
    intro B hef
    have hc : c ≠ '<' := hef c (by simp)
    have hrest : ∀ x ∈ rest, x ≠ '<' := fun x hx => hef x (by simp [hx])
    by_cases hnl : c = '\n'
    · subst hnl
      show unBreak ((brL ++ lineBreaks rest) ++ B) = '\n' :: rest ++ _
      have hb : brL ++ lineBreaks rest ++ B =
          '<' :: 'b' :: 'r' :: '>' :: (lineBreaks rest ++ B) := by
        simp [brL]
      rw [hb]
      rw [unBreak_cons]
      rw [if_pos (by simp [brL, List.isPrefixOf])]
      simp only [List.drop_succ_cons, List.drop_zero]
      rw [ih B hrest]
      simp
    · have hLB : lineBreaks (c :: rest) = [c] ++ lineBreaks rest := by
        simp [lineBreaks, hnl]
      rw [hLB]
      have hb : [c] ++ lineBreaks rest ++ B = c :: (lineBreaks rest ++ B) := by simp
      rw [hb]
      rw [unBreak_cons]
      have hpf : brL.isPrefixOf (c :: (lineBreaks rest ++ B)) = false := by
        rw [show brL = '<' :: ['b', 'r', '>'] from by decide]
        exact isPrefixOf_head_ne '<' _ c _ (fun he => hc he.symm)
      rw [if_neg (by simp [hpf])]
      rw [ih B hrest]
      simp

/-! ### Structure of the rendered output around the highlight marker -/

theorem markOpenL_eq : markOpenL = '<' :: 'm' :: moRest := rfl

theorem markCloseL_eq : markCloseL = '<' :: '/' :: "mark>".toList := rfl

theorem dropFirst_nilr (pat : List Char) : dropFirst pat [] = [] := rfl

theorem countSeq_nilr (pat : List Char) : countSeq pat [] = 0 := rfl

theorem unBreak_nilr : unBreak [] = [] := rfl

theorem countSeq_self_two (x y : Char) (zs X : List Char) :
    countSeq (x :: y :: zs) (x :: y :: (zs ++ X)) =
      1 + countSeq (x :: y :: zs) (y :: (zs ++ X)) := by
  have hp : (x :: y :: zs).isPrefixOf (x :: y :: (zs ++ X)) = true := by
    have h := isPrefixOf_self_append (x :: y :: zs) X
    rw [List.cons_append, List.cons_append] at h
    exact h
  simp [countSeq, hp]

theorem countSeq_marks_open (A mid B : List Char) (hA : ∀ c ∈ A, c ≠ '<')
    (hm : ∀ c ∈ mid, c ≠ '<') (hB : ∀ c ∈ B, c ≠ '<') :
    countSeq markOpenL
      (lineBreaks A ++ markOpenL ++ lineBreaks mid ++ markCloseL ++ lineBreaks B) = 1 := by
  rw [markOpenL_eq, markCloseL_eq]
  simp only [List.append_assoc, List.cons_append]
  rw [countSeq_lineBreaks_append 'm' moRest (by decide) A _ hA]
  rw [countSeq_self_two '<' 'm' moRest _]
  rw [countSeq_cons_neg _ _ _ (isPrefixOf_head_ne '<' _ 'm' _ (by decide))]
  rw [countSeq_append_no_head '<' ('m' :: moRest) moRest _ (by decide)]
  rw [countSeq_lineBreaks_append 'm' moRest (by decide) mid _ hm]
  rw [countSeq_cons_neg _ _ _ (isPrefixOf_second_ne '<' 'm' moRest '/' _ (by decide))]
  rw [countSeq_cons_neg _ _ _ (isPrefixOf_head_ne '<' _ '/' _ (by decide))]
  rw [countSeq_append_no_head '<' ('m' :: moRest) ("mark>".toList) _ (by decide)]
  have hBnil : lineBreaks B = lineBreaks B ++ ([] : List Char) := by simp
  rw [hBnil, countSeq_lineBreaks_append 'm' moRest (by decide) B [] hB]
  rfl

theorem countSeq_marks_close (A mid B : List Char) (hA : ∀ c ∈ A, c ≠ '<')
    (hm : ∀ c ∈ mid, c ≠ '<') (hB : ∀ c ∈ B, c ≠ '<') :
    countSeq markCloseL
      (lineBreaks A ++ markOpenL ++ lineBreaks mid ++ markCloseL ++ lineBreaks B) = 1 := by
  rw [markOpenL_eq, markCloseL_eq]
  simp only [List.append_assoc, List.cons_append]
  rw [countSeq_lineBreaks_append '/' ("mark>".toList) (by decide) A _ hA]
  rw [countSeq_cons_neg _ _ _ (isPrefixOf_second_ne '<' '/' ("mark>".toList) 'm' _ (by decide))]
  rw [countSeq_cons_neg _ _ _ (isPrefixOf_head_ne '<' _ 'm' _ (by decide))]
  rw [countSeq_append_no_head '<' ('/' :: "mark>".toList) moRest _ (by decide)]
  rw [countSeq_lineBreaks_append '/' ("mark>".toList) (by decide) mid _ hm]
  rw [countSeq_self_two '<' '/' ("mark>".toList) _]
  rw [countSeq_cons_neg _ _ _ (isPrefixOf_head_ne '<' _ '/' _ (by decide))]
  rw [countSeq_append_no_head '<' ('/' :: "mark>".toList) ("mark>".toList) _ (by decide)]
  have hBnil : lineBreaks B = lineBreaks B ++ ([] : List Char) := by simp
  rw [hBnil, countSeq_lineBreaks_append '/' ("mark>".toList) (by decide) B [] hB]
  rfl

theorem countSeq_open_unmarked (ef : List Char) (hef : ∀ c ∈ ef, c ≠ '<') :
    countSeq markOpenL (lineBreaks ef) = 0 := by
  rw [markOpenL_eq]
  have h : lineBreaks ef = lineBreaks ef ++ ([] : List Char) := by simp
  rw [h, countSeq_lineBreaks_append 'm' moRest (by decide) ef [] hef]
  rfl

theorem strip_marks_marked (A mid B : List Char) (hA : ∀ c ∈ A, c ≠ '<')
    (hm : ∀ c ∈ mid, c ≠ '<') :
    dropFirst markCloseL (dropFirst markOpenL
      (lineBreaks A ++ markOpenL ++ lineBreaks mid ++ markCloseL ++ lineBreaks B))
      = lineBreaks A ++ lineBreaks mid ++ lineBreaks B := by
  rw [markOpenL_eq, markCloseL_eq]
  simp only [List.append_assoc]
  rw [dropFirst_lineBreaks_append 'm' moRest (by decide) A _ hA]
  rw [dropFirst_self '<' ('m' :: moRest) _]
  rw [dropFirst_lineBreaks_append '/' ("mark>".toList) (by decide) A _ hA]
  rw [dropFirst_lineBreaks_append '/' ("mark>".toList) (by decide) mid _ hm]
  rw [dropFirst_self '<' ('/' :: "mark>".toList) _]

theorem strip_marks_unmarked (ef : List Char) (hef : ∀ c ∈ ef, c ≠ '<') :
    dropFirst markCloseL (dropFirst markOpenL (lineBreaks ef)) = lineBreaks ef := by
  rw [markOpenL_eq, markCloseL_eq]
  have h : lineBreaks ef = lineBreaks ef ++ ([] : List Char) := by simp
  rw [h]
  rw [dropFirst_lineBreaks_append 'm' moRest (by decide) ef [] hef]
  rw [dropFirst_nilr]
  rw [dropFirst_lineBreaks_append '/' ("mark>".toList) (by decide) ef [] hef]
  rw [dropFirst_nilr]

theorem unBreak_lineBreaks (ef : List Char) (hef : ∀ c ∈ ef, c ≠ '<') :
    unBreak (lineBreaks ef) = ef := by
  have h : lineBreaks ef = lineBreaks ef ++ ([] : List Char) := by simp
  rw [h, unBreak_lineBreaks_append ef [] hef, unBreak_nilr]
  simp

theorem render_match (full chunk : List Char) (st en : Nat)
    (h : search (chunkToks chunk) (html_escape full) = some (st, en)) :
    render_full_text full chunk =
      lineBreaks ((html_escape full).take st ++ markOpenL ++
        ((html_escape full).drop st).take (en - st) ++ markCloseL ++
        (html_escape full).drop en) := by
  simp only [render_full_text, h]

theorem render_nomatch (full chunk : List Char)
    (h : search (chunkToks chunk) (html_escape full) = none) :
    render_full_text full chunk = lineBreaks (html_escape full) := by
  simp only [render_full_text, h]

theorem no_lt_take (l : List Char) (h : ∀ c ∈ l, c ≠ '<') (n : Nat) :
    ∀ c ∈ l.take n, c ≠ '<' :=
  fun c hc => h c (List.take_subset n l hc)

theorem no_lt_drop (l : List Char) (h : ∀ c ∈ l, c ≠ '<') (n : Nat) :
    ∀ c ∈ l.drop n, c ≠ '<' :=
  fun c hc => h c (List.drop_subset n l hc)

theorem matchToks_cons_cons (t t2 : List Char) (ts : List (List Char)) (s r : List Char)
    (h : stripCI t s = some r) :
    matchToks (t :: t2 :: ts) s =
      if r.takeWhile notWord = [] then none
      else matchToks (t2 :: ts) (r.dropWhile notWord) := by
  simp only [matchToks, h]

/-! ### The claims -/

/-- C1 (counterexample).  The claim says a chunk with zero word tokens
leaves the escaped document unmodified, containing no highlight marker.
In fact zero tokens produce the empty pattern, which the search matches
at span (0,0), so an empty highlight marker is inserted: at
full = "ab" and chunk = "   ...!!!" the chunk has zero word tokens, yet
the output differs from the plain escaped document and contains the
highlight marker once. -/
theorem claim_C1_counterexample :
    chunkToks "   ...!!!".toList = [] ∧
    countSeq markOpenL (render_full_text "ab".toList "   ...!!!".toList) = 1 ∧
    render_full_text "ab".toList "   ...!!!".toList ≠ lineBreaks (html_escape "ab".toList) :=
  ⟨by decide, by decide, by decide⟩

/-- C1 (amended).  For every document `full` and every chunk whose
escaped, trimmed form yields zero word tokens, `render_full_text`
returns an empty highlight marker (the opening tag immediately followed
by the closing tag) prepended to the escaped document with newlines
converted to line-break markers. -/
theorem claim_C1_amended (full chunk : List Char) (h : chunkToks chunk = []) :
    render_full_text full chunk =
      markOpenL ++ markCloseL ++ lineBreaks (html_escape full) := by
  have hsearch : search (chunkToks chunk) (html_escape full) = some (0, 0) := by
    rw [h]
    cases hef : html_escape full with
    | nil => rfl
    | cons c rest =>
      rw [search_cons_some [] c rest (c :: rest) rfl]
      simp
  rw [render_match full chunk 0 0 hsearch]
  simp [lineBreaks_append, lineBreaks_markOpenL, lineBreaks_markCloseL]

theorem claim_C1_amended_witness :
    chunkToks "   ...!!!".toList = [] ∧
    render_full_text "A\nB".toList "   ...!!!".toList =
      markOpenL ++ markCloseL ++ lineBreaks (html_escape "A\nB".toList) :=
  ⟨by decide, claim_C1_amended "A\nB".toList "   ...!!!".toList (by decide)⟩

/-- C2.  The output always preserves the visible character content of
the escaped document: deleting the first occurrence of the opening
highlight tag and of the closing highlight tag and replacing every
line-break marker by a newline recovers exactly the escaped form of
`full`; highlighting adds markup and never removes or alters any other
character. -/
theorem claim_C2 (full chunk : List Char) :
    unBreak (dropFirst markCloseL (dropFirst markOpenL (render_full_text full chunk)))
      = html_escape full := by
  have hef := html_escape_no_lt full
  cases hs : search (chunkToks chunk) (html_escape full) with
  | none =>
    rw [render_nomatch full chunk hs]
    rw [strip_marks_unmarked _ hef]
    exact unBreak_lineBreaks _ hef
  | some p =>
    obtain ⟨st, en⟩ := p
    obtain ⟨hstle, hmin, r, hmr, hen⟩ := search_found _ _ st en hs
    rw [render_match full chunk st en hs]
    rw [lineBreaks_append, lineBreaks_append, lineBreaks_append, lineBreaks_append,
      lineBreaks_markOpenL, lineBreaks_markCloseL]
    rw [strip_marks_marked ((html_escape full).take st)
      (((html_escape full).drop st).take (en - st)) ((html_escape full).drop en)
      (no_lt_take _ hef st) (no_lt_take _ (no_lt_drop _ hef st) _)]
    rw [← lineBreaks_append, ← lineBreaks_append]
    have h1 : (html_escape full).take st ++ ((html_escape full).drop st).take (en - st)
        = (html_escape full).take en := by
      rw [← List.take_add]
      congr 1
      omega
    rw [h1, List.take_append_drop]
    exact unBreak_lineBreaks _ hef

/-- C3.  If the chunk yields at least one word token and the token
pattern matches at no position of the escaped document, the output is
the escaped document with newlines converted to line-break markers and
contains no highlight marker: absence of a match is a normal outcome,
not an error. -/
theorem claim_C3 (full chunk : List Char) (t : List Char) (ts : List (List Char))
    (_htoks : chunkToks chunk = t :: ts)
    (hnone : ∀ j, j < (html_escape full).length + 1 →
      matchToks (chunkToks chunk) ((html_escape full).drop j) = none) :
    render_full_text full chunk = lineBreaks (html_escape full) ∧
    countSeq markOpenL (render_full_text full chunk) = 0 := by
  have hef := html_escape_no_lt full
  have hall : ∀ j, matchToks (chunkToks chunk) ((html_escape full).drop j) = none := by
    intro j
    by_cases hj : j < (html_escape full).length + 1
    · exact hnone j hj
    · have hge : (html_escape full).length ≤ j := by omega
      rw [List.drop_eq_nil_of_le hge]
      have h0 := hnone (html_escape full).length (by omega)
      rwa [List.drop_length] at h0
  have hs : search (chunkToks chunk) (html_escape full) = none :=
    (search_eq_none_iff _ _).mpr hall
  refine ⟨render_nomatch full chunk hs, ?_⟩
  rw [render_nomatch full chunk hs]
  exact countSeq_open_unmarked _ hef

theorem claim_C3_witness :
    chunkToks "X Y Z".toList = [['X'], ['Y'], ['Z']] ∧
    (render_full_text "A B C".toList "X Y Z".toList = lineBreaks (html_escape "A B C".toList) ∧
     countSeq markOpenL (render_full_text "A B C".toList "X Y Z".toList) = 0) :=
  ⟨by decide, claim_C3 "A B C".toList "X Y Z".toList ['X'] [['Y'], ['Z']]
    (by decide) (by decide)⟩

/-- C4.  If the token pattern matches at two positions `i < j` of the
escaped document, the search start `st` lies at or before `i`
(first-match wins), the output wraps the span found at `st`, and the
opening and closing highlight tags each occur exactly once in the
output, so every later occurrence remains unmarked. -/
theorem claim_C4 (full chunk : List Char) (i j : Nat) (ri rj : List Char)
    (_hij : i < j)
    (hi : matchToks (chunkToks chunk) ((html_escape full).drop i) = some ri)
    (_hj : matchToks (chunkToks chunk) ((html_escape full).drop j) = some rj) :
    ∃ st en, search (chunkToks chunk) (html_escape full) = some (st, en) ∧ st ≤ i ∧
      render_full_text full chunk =
        lineBreaks ((html_escape full).take st) ++ markOpenL ++
        lineBreaks (((html_escape full).drop st).take (en - st)) ++ markCloseL ++
        lineBreaks ((html_escape full).drop en) ∧
      countSeq markOpenL (render_full_text full chunk) = 1 ∧
      countSeq markCloseL (render_full_text full chunk) = 1 := by
  have hef := html_escape_no_lt full
  cases hs : search (chunkToks chunk) (html_escape full) with
  | none =>
    exfalso
    have h0 := (search_eq_none_iff _ _).mp hs i
    rw [h0] at hi
    simp at hi
  | some p =>
    obtain ⟨st, en⟩ := p
    obtain ⟨hstle, hmin, r, hmr, hen⟩ := search_found _ _ st en hs
    have hsti : st ≤ i := by
      by_contra hlt
      push_neg at hlt
      have h0 := hmin i hlt
      rw [h0] at hi
      simp at hi
    have hout : render_full_text full chunk =
        lineBreaks ((html_escape full).take st) ++ markOpenL ++
        lineBreaks (((html_escape full).drop st).take (en - st)) ++ markCloseL ++
        lineBreaks ((html_escape full).drop en) := by
      rw [render_match full chunk st en hs]
      rw [lineBreaks_append, lineBreaks_append, lineBreaks_append, lineBreaks_append,
        lineBreaks_markOpenL, lineBreaks_markCloseL]
    refine ⟨st, en, rfl, hsti, hout, ?_, ?_⟩
    · rw [hout]
      exact countSeq_marks_open _ _ _ (no_lt_take _ hef st)
        (no_lt_take _ (no_lt_drop _ hef st) _) (no_lt_drop _ hef en)
    · rw [hout]
      exact countSeq_marks_close _ _ _ (no_lt_take _ hef st)
        (no_lt_take _ (no_lt_drop _ hef st) _) (no_lt_drop _ hef en)

theorem claim_C4_witness :
    ∃ st en, search (chunkToks "X Y".toList) (html_escape "X Y a X Y".toList)
        = some (st, en) ∧ st ≤ 0 ∧
      render_full_text "X Y a X Y".toList "X Y".toList =
        lineBreaks ((html_escape "X Y a X Y".toList).take st) ++ markOpenL ++
        lineBreaks (((html_escape "X Y a X Y".toList).drop st).take (en - st)) ++ markCloseL ++
        lineBreaks ((html_escape "X Y a X Y".toList).drop en) ∧
      countSeq markOpenL (render_full_text "X Y a X Y".toList "X Y".toList) = 1 ∧
      countSeq markCloseL (render_full_text "X Y a X Y".toList "X Y".toList) = 1 :=
  claim_C4 "X Y a X Y".toList "X Y".toList 0 6 " a X Y".toList []
    (by decide) (by decide) (by decide)

/-- C5 (counterexample).  The chunk "a b" differs from the document
substring "ab" only by an inserted space (removing whitespace from the
chunk yields exactly the substring, and the document equals that
substring), yet the pattern requires a nonempty non-word separator
between the two tokens and therefore fails on "ab": the output carries
no highlight marker, refuting the claim that a chunk equal to a
substring up to case and whitespace always matches. -/
theorem claim_C5_counterexample :
    ("a b".toList).filter (fun c => !pyIsSpace c) = "ab".toList ∧
    render_full_text "ab".toList "a b".toList = "ab".toList ∧
    countSeq markOpenL (render_full_text "ab".toList "a b".toList) = 0 :=
  ⟨by decide, by decide, by decide⟩

/-- C5 (amended).  If the document contains a substring `s` whose word
tokenization (after escaping) agrees token by token, up to letter case,
with the tokenization of the escaped trimmed chunk, and the chunk yields
at least one token, then the search finds a match and the output carries
exactly one highlight marker pair.  Whitespace changes that preserve
the word-token sequence (and arbitrary case changes) therefore never
lose the match; whitespace inserted inside a word splits a token and
can, which is why the claim is restricted to equal token sequences. -/
theorem claim_C5_amended (full chunk u s v : List Char)
    (hfull : full = u ++ s ++ v)
    (hci : (chunkToks chunk).map (List.map foldCase) =
      (tokenize (html_escape s)).map (List.map foldCase))
    (hne : chunkToks chunk ≠ []) :
    (∃ st en, search (chunkToks chunk) (html_escape full) = some (st, en)) ∧
    countSeq markOpenL (render_full_text full chunk) = 1 ∧
    countSeq markCloseL (render_full_text full chunk) = 1 := by
  have hef := html_escape_no_lt full
  have hts : tokenize (html_escape s) ≠ [] := by
    intro he
    rw [he] at hci
    simp only [List.map_nil, List.map_eq_nil_iff] at hci
    exact hne hci
  obtain ⟨jj, rr, hjle, hmt⟩ :=
    matchToks_tokenize_exists (html_escape s) (html_escape v) hts
  have hmt2 : matchToks (chunkToks chunk)
      ((html_escape s).drop jj ++ html_escape v) = some rr := by
    rw [matchToks_congr (tokenize (html_escape s)) (chunkToks chunk) _ hci]
    exact hmt
  have hsplit : html_escape full = html_escape u ++ (html_escape s ++ html_escape v) := by
    rw [hfull, html_escape_append, html_escape_append, List.append_assoc]
  have hdrop : (html_escape full).drop ((html_escape u).length + jj) =
      (html_escape s).drop jj ++ html_escape v := by
    rw [hsplit, List.drop_append, List.drop_append_of_le_length hjle]
  have hmatch : matchToks (chunkToks chunk)
      ((html_escape full).drop ((html_escape u).length + jj)) = some rr := by
    rw [hdrop]
    exact hmt2
  cases hs : search (chunkToks chunk) (html_escape full) with
  | none =>
    exfalso
    have h0 := (search_eq_none_iff _ _).mp hs ((html_escape u).length + jj)
    rw [h0] at hmatch
    simp at hmatch
  | some p =>
    obtain ⟨st, en⟩ := p
    have hout : render_full_text full chunk =
        lineBreaks ((html_escape full).take st) ++ markOpenL ++
        lineBreaks (((html_escape full).drop st).take (en - st)) ++ markCloseL ++
        lineBreaks ((html_escape full).drop en) := by
      rw [render_match full chunk st en hs]
      rw [lineBreaks_append, lineBreaks_append, lineBreaks_append, lineBreaks_append,
        lineBreaks_markOpenL, lineBreaks_markCloseL]
    refine ⟨⟨st, en, rfl⟩, ?_, ?_⟩
    · rw [hout]
      exact countSeq_marks_open _ _ _ (no_lt_take _ hef st)
        (no_lt_take _ (no_lt_drop _ hef st) _) (no_lt_drop _ hef en)
    · rw [hout]
      exact countSeq_marks_close _ _ _ (no_lt_take _ hef st)
        (no_lt_take _ (no_lt_drop _ hef st) _) (no_lt_drop _ hef en)

theorem claim_C5_amended_witness :
    (∃ st en, search (chunkToks "hello WORLD".toList)
      (html_escape "HELLO world".toList) = some (st, en)) ∧
    countSeq markOpenL (render_full_text "HELLO world".toList "hello WORLD".toList) = 1 ∧
    countSeq markCloseL (render_full_text "HELLO world".toList "hello WORLD".toList) = 1 :=
  claim_C5_amended "HELLO world".toList "hello WORLD".toList [] "HELLO world".toList []
    (by decide) (by decide) (by decide)

/-- C6.  Newlines are non-word characters, and the separator between
consecutive tokens accepts any nonempty run of non-word characters: a
pattern built from two tokens matches a document region in which the
tokens are separated by an arbitrary run of punctuation, spaces and
newlines, so a chunk broken across lines still matches a reflowed
document and vice versa. -/
theorem claim_C6 (w1 w2tail sep v : List Char) (c2 : Char)
    (hsep : sep ≠ []) (hsepnw : ∀ c ∈ sep, isWordChar c = false)
    (hc2 : isWordChar c2 = true) :
    isWordChar '\n' = false ∧
    matchToks [w1, c2 :: w2tail] (w1 ++ sep ++ (c2 :: w2tail) ++ v) = some v := by
  refine ⟨by decide, ?_⟩
  have hshape : w1 ++ sep ++ (c2 :: w2tail) ++ v = w1 ++ (sep ++ c2 :: (w2tail ++ v)) := by
    simp [List.append_assoc]
  rw [hshape]
  rw [matchToks_cons_cons w1 (c2 :: w2tail) [] _ _ (stripCI_refl w1 _)]
  have hnw : ∀ a ∈ sep, notWord a = true := fun a ha => by
    simp [notWord, hsepnw a ha]
  have htw : (sep ++ c2 :: (w2tail ++ v)).takeWhile notWord = sep :=
    takeWhile_append_cons_stop notWord sep c2 _ hnw (by simp [notWord, hc2])
  have hdw : (sep ++ c2 :: (w2tail ++ v)).dropWhile notWord = c2 :: (w2tail ++ v) :=
    dropWhile_append_cons_stop notWord sep c2 _ hnw (by simp [notWord, hc2])
  rw [htw, hdw, if_neg hsep]
  show stripCI (c2 :: w2tail) (c2 :: (w2tail ++ v)) = some v
  have h2 : c2 :: (w2tail ++ v) = (c2 :: w2tail) ++ v := by simp
  rw [h2]
  exact stripCI_refl _ _

theorem claim_C6_witness :
    isWordChar '\n' = false ∧
    matchToks ["word".toList, 'w' :: "ord2".toList]
      ("word".toList ++ ",   \n\n  ".toList ++ ('w' :: "ord2".toList) ++ []) = some [] :=
  claim_C6 "word".toList "ord2".toList ",   \n\n  ".toList [] 'w'
    (by decide) (by decide) (by decide)

/-- C7.  Escaping precedes matching: at full = "<b>B C</b>" and
chunk = "B C" the output renders the angle brackets of the document as
escaped entities, and the highlight marker wraps exactly "B C" inside
the escaped text — the match span indexes correctly into the escaped
string even though escaping changed character counts. -/
theorem claim_C7 :
    render_full_text "<b>B C</b>".toList "B C".toList =
      "&lt;b&gt;".toList ++ markOpenL ++ "B C".toList ++ markCloseL ++
        "&lt;/b&gt;".toList := by
  decide

/-- C8.  `render_full_text` is a total function: for every pair of
input strings it returns a string which is either the escaped document
with newlines converted (failed match degrades to the unmarked output)
or that document with one span wrapped in the highlight marker — there
is no error outcome. -/
theorem claim_C8 (full chunk : List Char) :
    render_full_text full chunk = lineBreaks (html_escape full) ∨
    ∃ st en, search (chunkToks chunk) (html_escape full) = some (st, en) ∧
      render_full_text full chunk =
        lineBreaks ((html_escape full).take st ++ markOpenL ++
          ((html_escape full).drop st).take (en - st) ++ markCloseL ++
          (html_escape full).drop en) := by
  cases hs : search (chunkToks chunk) (html_escape full) with
  | none => exact Or.inl (render_nomatch full chunk hs)
  | some p =>
    obtain ⟨st, en⟩ := p
    exact Or.inr ⟨st, en, rfl, render_match full chunk st en hs⟩

/-- C9.  Whenever the output contains the highlight marker and the chunk
yields at least one word token, the highlighted span starts with a
case-insensitive occurrence of the first token and ends at the end of a
case-insensitive occurrence of the last token: no separator characters
precede the first token or follow the last token inside the highlight. -/
theorem claim_C9 (full chunk : List Char) (t1 : List Char) (ts : List (List Char))
    (htoks : chunkToks chunk = t1 :: ts)
    (hmark : countSeq markOpenL (render_full_text full chunk) ≠ 0) :
    ∃ st en, search (chunkToks chunk) (html_escape full) = some (st, en) ∧
      ((((html_escape full).drop st).take (en - st)).take t1.length).map foldCase
        = t1.map foldCase ∧
      ((((html_escape full).drop st).take (en - st)).drop
          ((((html_escape full).drop st).take (en - st)).length - (ts.getLastD t1).length)).map
          foldCase = (ts.getLastD t1).map foldCase := by
  have hef := html_escape_no_lt full
  cases hs : search (chunkToks chunk) (html_escape full) with
  | none =>
    exfalso
    rw [render_nomatch full chunk hs] at hmark
    exact hmark (countSeq_open_unmarked _ hef)
  | some p =>
    obtain ⟨st, en⟩ := p
    obtain ⟨hstle, hmin, r, hmr, hen⟩ := search_found _ _ st en hs
    rw [htoks] at hmr
    obtain ⟨m, hm, hpre, hsuf, hlast, hlent⟩ := matchToks_decomp ts t1 _ r hmr
    have hmid : ((html_escape full).drop st).take (en - st) = m := by
      have hd : en - st = m.length := by
        have hlen := congrArg List.length hm
        simp only [List.length_append] at hlen
        omega
      rw [hd, hm, List.take_left]
    refine ⟨st, en, rfl, ?_, ?_⟩
    · rw [hmid]
      exact hpre
    · rw [hmid]
      exact hsuf

theorem claim_C9_witness :
    ∃ st en, search (chunkToks "hello world".toList)
        (html_escape "Hello, world".toList) = some (st, en) ∧
      ((((html_escape "Hello, world".toList).drop st).take (en - st)).take
          ("hello".toList).length).map foldCase = ("hello".toList).map foldCase ∧
      ((((html_escape "Hello, world".toList).drop st).take (en - st)).drop
          ((((html_escape "Hello, world".toList).drop st).take (en - st)).length -
            (["world".toList].getLastD "hello".toList).length)).map foldCase
        = (["world".toList].getLastD "hello".toList).map foldCase :=
  claim_C9 "Hello, world".toList "hello world".toList "hello".toList ["world".toList]
    (by decide) (by decide)

/-- C10.  The output depends on the chunk only through its word-token
sequence: two chunks whose escaped, trimmed forms tokenize to the same
list of word tokens produce identical outputs on every document, so
punctuation, whitespace and separator characters of the chunk cannot
influence the result. -/
theorem claim_C10 (full chunk1 chunk2 : List Char)
    (h : chunkToks chunk1 = chunkToks chunk2) :
    render_full_text full chunk1 = render_full_text full chunk2 := by
  simp only [render_full_text, h]

theorem claim_C10_witness :
    chunkToks "a, b!".toList = chunkToks "  a b ".toList ∧
    render_full_text "x a b".toList "a, b!".toList =
      render_full_text "x a b".toList "  a b ".toList :=
  ⟨by decide, claim_C10 "x a b".toList "a, b!".toList "  a b ".toList (by decide)⟩
